import Mathlib

/-!
# Walkera documentation downloader: a verification development for `main.go`

The program fetches one vendor page, extracts the anchors that point at PDF
documents and downloads each of them under a sanitized file name.

Modelling conventions.

* A Go `string` is modelled by `GoString = List Char`: the sequence of runes
  that Go's UTF-8 decoder yields for it (a byte that is not part of a valid
  encoding decodes to U+FFFD, one rune per byte).  `strings.ToLower`,
  `regexp` and `strings.TrimSpace` all work rune by rune, and `filepath.Base`,
  `filepath.Ext`, `strings.Trim`, `strings.ReplaceAll` and `strings.Contains`
  only look for ASCII bytes, so they commute with that decoding.
* Functions of the Go standard library are modelled from their documented
  behaviour on Unix (`filepath.Separator = '/'`).
* The file system and the list of issued requests are explicit state; the
  outcome of each operating-system or network call is an explicit input.
  Log output is modelled in `getDataFromURL` only.
* A run-time panic is an `Except.error`.
-/

namespace Walkera

/-- A Go string, as its sequence of runes. -/
abbrev GoString := List Char

/-! ## Standard-library string functions -/

/-- Go's `unicode.ToLower`, as far as this program can observe it.  The ASCII
capitals move to the ASCII small letters; U+0130 and U+212A are the only runes
outside ASCII whose lower case is an ASCII rune (`i` and `k`).  Every other
rune outside ASCII lowers to a rune outside ASCII; the model leaves it in
place, which `urlToFilename` cannot tell apart (the next step replaces every
rune outside `[a-z0-9]` by `_`) and neither can the search for `.pdf`. -/
def toLowerRune (c : Char) : Char :=
  if 'A' ≤ c ∧ c ≤ 'Z' then Char.ofNat (c.toNat + 32)
  else if c = Char.ofNat 0x130 then 'i'
  else if c = Char.ofNat 0x212A then 'k'
  else c

/-- Go's `strings.ToLower`. -/
def toLower (s : GoString) : GoString := s.map toLowerRune

/-- The first loop of `filepath.Base`: strip the trailing separators. -/
def stripTrailingSeparators (path : GoString) : GoString :=
  (path.reverse.dropWhile (fun c => c == '/')).reverse

/-- The second loop of `filepath.Base`: what follows the last separator. -/
def lastElement (path : GoString) : GoString :=
  (path.reverse.takeWhile (fun c => c != '/')).reverse

/-- Go's `filepath.Base` on Unix (the volume name is always empty there). -/
def filepathBase (path : GoString) : GoString :=
  if path = [] then ['.']
  else
    let p := lastElement (stripTrailingSeparators path)
    if p = [] then ['/'] else p

/-- The loop of `filepath.Ext`, run over the reversed path: `acc` holds the
characters already passed, in path order. -/
def extScan : GoString → GoString → GoString
  | [], _ => []
  | c :: rest, acc =>
    if c = '/' then [] else if c = '.' then '.' :: acc else extScan rest (c :: acc)

/-- Go's `filepath.Ext`: the suffix from the last dot of the last path element,
empty when that element has no dot. -/
def filepathExt (path : GoString) : GoString := extScan path.reverse []

/-- The character class `[a-z0-9]`. -/
def isLowerAlnum (c : Char) : Bool :=
  ('a' ≤ c && c ≤ 'z') || ('0' ≤ c && c ≤ '9')

/-- The call `regexp.MustCompile("[^a-z0-9]").ReplaceAllString(s, "_")`: every
rune outside the class is a match of length one. -/
def replaceNonAlnum (s : GoString) : GoString :=
  s.map (fun c => if isLowerAlnum c then c else '_')

/-- The call `regexp.MustCompile("_+").ReplaceAllString(s, "_")`: every maximal
run of underscores becomes one underscore. -/
def collapseUnderscores : GoString → GoString
  | [] => []
  | [c] => [c]
  | c :: d :: t =>
    if c = '_' ∧ d = '_' then collapseUnderscores (d :: t)
    else c :: collapseUnderscores (d :: t)

/-- The call `strings.Trim(s, "_")`. -/
def trimUnderscores (s : GoString) : GoString :=
  ((s.dropWhile (fun c => c == '_')).reverse.dropWhile (fun c => c == '_')).reverse

/-- The scan of `strings.ReplaceAll(s, old, "")` for a non-empty `old`: the
occurrences of `old` are found from left to right, without overlap, in the
input (never in the output).  `skip` counts the characters of the occurrence
being dropped that are still ahead. -/
def removeAux (old : GoString) : Nat → GoString → GoString
  | _, [] => []
  | k + 1, _ :: t => removeAux old k t
  | 0, c :: t =>
    if old.isPrefixOf (c :: t) then removeAux old (old.length - 1) t
    else c :: removeAux old 0 t

/-- Go's `strings.Contains`. -/
def stringsContains (s substr : GoString) : Bool :=
  s.tails.any (fun t => substr.isPrefixOf t)

/-- The white space of Go's `unicode.IsSpace`. -/
def isSpace (c : Char) : Bool :=
  let n := c.toNat
  (9 ≤ n && n ≤ 13) || n = 0x20 || n = 0x85 || n = 0xA0 || n = 0x1680 ||
    (0x2000 ≤ n && n ≤ 0x200A) || n = 0x2028 || n = 0x2029 || n = 0x202F ||
    n = 0x205F || n = 0x3000

/-- Go's `strings.TrimSpace`. -/
def trimSpace (s : GoString) : GoString :=
  ((s.dropWhile isSpace).reverse.dropWhile isSpace).reverse

/-! ## The filename sanitizer (`main.go`, lines 83-137) -/

/-- The function `getFilename` of `main.go`. -/
def getFilename (path : GoString) : GoString := filepathBase path

/-- The function `removeSubstring` of `main.go`: `strings.ReplaceAll` with an
empty replacement (which returns its input when `toRemove` is empty). -/
def removeSubstring (input toRemove : GoString) : GoString :=
  if toRemove = [] then input else removeAux toRemove 0 input

/-- The function `getFileExtension` of `main.go`. -/
def getFileExtension (path : GoString) : GoString := filepathExt path

/-- The slice `invalidSubstrings` of `urlToFilename`. -/
def invalidSubstrings : List GoString := ["_pdf".toList]

/-- The function `urlToFilename` of `main.go`. -/
def urlToFilename (rawURL : GoString) : GoString :=
  let lower := toLower rawURL
  let lower := getFilename lower
  let safe := replaceNonAlnum lower
  let safe := collapseUnderscores safe
  let safe := trimUnderscores safe
  let safe := invalidSubstrings.foldl removeSubstring safe
  if getFileExtension safe ≠ ".pdf".toList then safe ++ ".pdf".toList else safe

/-- The value of `safe` in `urlToFilename` when the extension is tested: the
name after the lower-casing, base-name, replacement, collapsing, trimming and
removal steps. -/
def sanitizedStem (rawURL : GoString) : GoString :=
  removeAux "_pdf".toList 0
    (trimUnderscores (collapseUnderscores (replaceNonAlnum (getFilename (toLower rawURL)))))

/-- The characters a sanitized stem is made of. -/
def SafeChar (c : Char) : Prop := isLowerAlnum c = true ∨ c = '_'

/-- No two neighbours are both underscores. -/
def NoDouble (s : GoString) : Prop := List.Chain' (fun a b => ¬ (a = '_' ∧ b = '_')) s

/-! ## Link extraction (`main.go`, lines 256-286) -/

/-- The node types of `golang.org/x/net/html`. -/
inductive NodeType where
  | ErrorNode
  | TextNode
  | DocumentNode
  | ElementNode
  | CommentNode
  | DoctypeNode
  | RawNode
  deriving DecidableEq, Repr

/-- The type `html.Attribute`. -/
structure Attribute where
  nameSpace : GoString
  key : GoString
  val : GoString
  deriving DecidableEq, Repr

/-- The type `html.Node`, as a tree: `children` lists the nodes reached from
`FirstChild` by following `NextSibling`. -/
inductive Node where
  | mk (type : NodeType) (data : GoString) (attr : List Attribute) (children : List Node)

/-- The body of the loop over `n.Attr` in `traverse`, with the captured slice
`pdfLinks` as explicit state. -/
def scanAttr (pdfLinks : List GoString) (attr : Attribute) : List GoString :=
  if attr.key = "href".toList then
    let href := trimSpace attr.val
    if stringsContains (toLower href) ".pdf".toList then pdfLinks ++ [href] else pdfLinks
  else pdfLinks

mutual
/-- The closure `traverse` of `extractPDFUrls`. -/
def traverse : Node → List GoString → List GoString
  | .mk type data attr children, pdfLinks =>
    let pdfLinks :=
      if type = NodeType.ElementNode ∧ data = "a".toList then attr.foldl scanAttr pdfLinks
      else pdfLinks
    traverseChildren children pdfLinks
/-- The loop `for c := n.FirstChild; c != nil; c = c.NextSibling` of `traverse`. -/
def traverseChildren : List Node → List GoString → List GoString
  | [], pdfLinks => pdfLinks
  | c :: rest, pdfLinks => traverseChildren rest (traverse c pdfLinks)
end

/-- The function `extractPDFUrls` of `main.go`; `parse` stands for
`html.Parse`, which returns a tree or an error. -/
def extractPDFUrls (parse : GoString → Except GoString Node) (htmlInput : GoString) :
    List GoString :=
  match parse htmlInput with
  | .error _ => []
  | .ok doc => traverse doc []

/-! ### The walk the specification describes -/

mutual
/-- The nodes of a tree in depth-first pre-order, which is document order. -/
def preorder : Node → List Node
  | .mk type data attr children => Node.mk type data attr children :: preorderAll children
/-- The nodes of a forest in document order. -/
def preorderAll : List Node → List Node
  | [] => []
  | c :: rest => preorder c ++ preorderAll rest
end

/-- Whether a node is an element named `a`. -/
def isAnchor : Node → Bool
  | .mk type data _ _ => type = NodeType.ElementNode ∧ data = "a".toList

/-- What one node contributes, in the words of the specification: for an
anchor, the trimmed values of its `href` attributes whose lower-case form
contains `.pdf`; for any other node, nothing. -/
def anchorLinks : Node → List GoString
  | .mk type data attr children =>
    if isAnchor (Node.mk type data attr children) then
      ((attr.filter (fun a => a.key = "href".toList)).map (fun a => trimSpace a.val)).filter
        (fun href => ".pdf".toList <:+: toLower href)
    else []

/-- The list the specification describes: the contributions of the nodes, in
document order, duplicates kept. -/
def documentOrderLinks (doc : Node) : List GoString :=
  (preorder doc).flatMap anchorLinks

/-! ## The downloader (`main.go`, lines 139-214) -/

/-- The content of a file. -/
abbrev Bytes := List UInt8

/-- What `os.Stat` finds at a path. -/
inductive FileInfo where
  | file (content : Bytes)
  | dir
  deriving DecidableEq, Repr

/-- The state outside the program: the file system (`none` where `os.Stat`
returns an error) and the GET requests issued so far. -/
structure World where
  files : GoString → Option FileInfo
  requests : List GoString

/-- A response of `client.Get`, as far as `downloadPDF` reads it. -/
structure Response where
  /-- The field `resp.StatusCode`. -/
  statusCode : Nat
  /-- The value of `resp.Header.Get("Content-Type")`, empty when absent. -/
  contentType : GoString
  /-- The bytes `io.Copy` moved from `resp.Body` into the buffer. -/
  body : Bytes
  /-- Whether `io.Copy` returned an error. -/
  readFailed : Bool

/-- The outcomes of the calls one run of `downloadPDF` makes to the outside. -/
structure Outcome where
  /-- The result of `client.Get`: `none` for a transport error. -/
  get : Option Response
  /-- Whether `os.Create` returns an error (it then creates nothing). -/
  createFails : Bool
  /-- Whether `buf.WriteTo(out)` returns an error. -/
  writeFails : Bool
  /-- How many bytes reached the file when `buf.WriteTo(out)` fails. -/
  bytesWritten : Nat

/-- The function `fileExists` of `main.go`. -/
def fileExists (w : World) (filename : GoString) : Bool :=
  match w.files filename with
  | none => false
  | some info => !(info = FileInfo.dir)

/-- The function `downloadPDF` of `main.go`.  `join` stands for
`filepath.Join`.  `os.Create` leaves an empty file at the path; a write that
succeeds has moved the whole buffer to it. -/
def downloadPDF (join : GoString → GoString → GoString) (o : Outcome)
    (finalURL outputDir : GoString) (w : World) : Bool × World :=
  let filename := toLower (urlToFilename finalURL)
  let filePath := join outputDir filename
  if fileExists w filePath then (false, w)
  else
    let w : World := ⟨w.files, w.requests ++ [finalURL]⟩
    match o.get with
    | none => (false, w)
    | some resp =>
      if resp.statusCode ≠ 200 then (false, w)
      else if !stringsContains resp.contentType "application/pdf".toList then (false, w)
      else if resp.readFailed then (false, w)
      else if resp.body.length = 0 then (false, w)
      else if o.createFails then (false, w)
      else
        let w : World := ⟨Function.update w.files filePath (some (FileInfo.file [])), w.requests⟩
        if o.writeFails then
          (false, ⟨Function.update w.files filePath
            (some (FileInfo.file (resp.body.take o.bytesWritten))), w.requests⟩)
        else
          (true, ⟨Function.update w.files filePath (some (FileInfo.file resp.body)), w.requests⟩)

/-! ## The entry point (`main.go`, lines 18-56) -/

/-- Lines 47-49 of `main`: the value of `urls` that is validated next. -/
def absoluteURL (urls : GoString) : GoString :=
  if !stringsContains urls "https://en.walkera.com/".toList then
    "https://en.walkera.com/".toList ++ urls
  else urls

/-- The loop of `main` over `finalList` (lines 46-55).  `isUrlValid` stands for
the function of that name, a call of `url.ParseRequestURI`; `outcome` gives the
outcomes of the outside calls for each download. -/
def mainLoop (isUrlValid : GoString → Bool) (join : GoString → GoString → GoString)
    (outcome : GoString → Outcome) : List GoString → World → World
  | [], w => w
  | urls :: rest, w =>
    let urls := absoluteURL urls
    let w := if isUrlValid urls then (downloadPDF join (outcome urls) urls "PDFs/".toList w).2
      else w
    mainLoop isUrlValid join outcome rest w

/-! ## Fetching the page (`main.go`, lines 288-306) -/

/-- A run-time panic of the Go program. -/
inductive Panic where
  | nilPointerDereference
  deriving DecidableEq, Repr

/-- A non-nil `*http.Response` of `http.Get`, as far as `getDataFromURL` uses
it: the bytes `io.ReadAll` returns and the errors of reading and closing. -/
structure PageResponse where
  body : GoString
  readErr : Option GoString
  closeErr : Option GoString

/-- Appends an error to the log when there is one: `if err != nil` followed by
`log.Println(err)`. -/
def logIfErr (log : List GoString) : Option GoString → List GoString
  | none => log
  | some err => log ++ [err]

/-- The function `getDataFromURL` of `main.go`.  `httpGet` stands for
`http.Get` and returns the pair `(response, err)`, where `none` is `nil`; the
result is the log and either the returned string or a panic.  Reading
`response.Body` dereferences `response`. -/
def getDataFromURL (httpGet : GoString → Option PageResponse × Option GoString)
    (uri : GoString) (log : List GoString) : List GoString × Except Panic GoString :=
  let log := log ++ ["Scraping ".toList ++ uri]
  let (response, err) := httpGet uri
  let log := logIfErr log err
  match response with
  | none => (log, Except.error Panic.nilPointerDereference)
  | some r =>
    let log := logIfErr log r.readErr
    let log := logIfErr log r.closeErr
    (log, Except.ok r.body)

/-! ## An example page -/

/-- An anchor element with one `href` attribute and no children. -/
def anchorTo (href : GoString) : Node :=
  Node.mk NodeType.ElementNode "a".toList [⟨[], "href".toList, href⟩] []

/-- A parsed page whose body holds the anchors ` Manual.PDF `, `manual.txt`
and, twice, `docs/x.pdf`, and whose head holds a `link` element that also has
an `href`. -/
def samplePage : Node :=
  Node.mk NodeType.DocumentNode [] []
    [Node.mk NodeType.ElementNode "html".toList []
      [Node.mk NodeType.ElementNode "head".toList []
        [Node.mk NodeType.ElementNode "link".toList [⟨[], "href".toList, "style.pdf".toList⟩] []],
       Node.mk NodeType.ElementNode "body".toList []
        [anchorTo " Manual.PDF ".toList,
         Node.mk NodeType.ElementNode "p".toList [] [anchorTo "manual.txt".toList],
         anchorTo "docs/x.pdf".toList,
         anchorTo "docs/x.pdf".toList]]]

/-! # Theorems -/

/-! ## Characters -/

theorem char_eq_iff (a b : Char) : a = b ↔ a.toNat = b.toNat := by
  constructor
  · intro h; rw [h]
  · intro h
    have := congrArg Char.ofNat h
    simpa [Char.ofNat_toNat] using this

theorem char_le_iff (a b : Char) : a ≤ b ↔ a.toNat ≤ b.toNat := Iff.rfl

theorem isLowerAlnum_iff (c : Char) :
    isLowerAlnum c = true ↔
      (97 ≤ c.toNat ∧ c.toNat ≤ 122) ∨ (48 ≤ c.toNat ∧ c.toNat ≤ 57) := by
  simp only [isLowerAlnum, Bool.or_eq_true, Bool.and_eq_true, decide_eq_true_eq, char_le_iff]
  exact Iff.rfl

theorem toLowerRune_of_lowerAlnum {c : Char} (h : isLowerAlnum c = true) :
    toLowerRune c = c := by
  rw [isLowerAlnum_iff] at h
  unfold toLowerRune
  simp only [char_le_iff, char_eq_iff]
  have e5 : 'A'.toNat = 65 := rfl
  have e6 : 'Z'.toNat = 90 := rfl
  have e7 : (Char.ofNat 0x130).toNat = 0x130 := rfl
  have e8 : (Char.ofNat 0x212A).toNat = 0x212A := rfl
  rw [e5, e6, e7, e8]
  split_ifs <;> omega

theorem lowerAlnum_ne {c d : Char} (h : isLowerAlnum c = true)
    (hd : isLowerAlnum d = false) : c ≠ d := by
  intro e; rw [e, hd] at h; exact Bool.false_ne_true h

theorem lowerAlnum_ne_underscore {c : Char} (h : isLowerAlnum c = true) : c ≠ '_' :=
  lowerAlnum_ne h (by decide)

theorem lowerAlnum_ne_dot {c : Char} (h : isLowerAlnum c = true) : c ≠ '.' :=
  lowerAlnum_ne h (by decide)

theorem lowerAlnum_ne_slash {c : Char} (h : isLowerAlnum c = true) : c ≠ '/' :=
  lowerAlnum_ne h (by decide)


theorem SafeChar.ne_dot {c : Char} (h : SafeChar c) : c ≠ '.' := by
  rcases h with h | h
  · exact lowerAlnum_ne_dot h
  · rw [h]; decide

theorem SafeChar.ne_slash {c : Char} (h : SafeChar c) : c ≠ '/' := by
  rcases h with h | h
  · exact lowerAlnum_ne_slash h
  · rw [h]; decide

theorem SafeChar.toLowerRune {c : Char} (h : SafeChar c) : toLowerRune c = c := by
  rcases h with h | h
  · exact toLowerRune_of_lowerAlnum h
  · rw [h]; decide

theorem SafeChar.replace {c : Char} (h : SafeChar c) :
    (if isLowerAlnum c then c else '_') = c := by
  rcases h with h | h
  · simp [h]
  · rw [h]; decide

theorem safeChar_replace (c : Char) : SafeChar (if isLowerAlnum c then c else '_') := by
  by_cases h : isLowerAlnum c = true
  · simp [h, SafeChar]
  · simp [h, SafeChar]

/-! ## The regular-expression steps -/


theorem NoDouble.not_infix {s : GoString} (h : NoDouble s) : ¬ (['_', '_'] <:+: s) := by
  intro hi
  have := List.Chain'.infix h hi
  simp at this

theorem replaceNonAlnum_safe (s : GoString) : ∀ c ∈ replaceNonAlnum s, SafeChar c := by
  intro c hc
  simp only [replaceNonAlnum, List.mem_map] at hc
  obtain ⟨a, _, rfl⟩ := hc
  exact safeChar_replace a

theorem replaceNonAlnum_of_safe {s : GoString} (h : ∀ c ∈ s, SafeChar c) :
    replaceNonAlnum s = s := by
  unfold replaceNonAlnum
  conv_rhs => rw [← List.map_id s]
  exact List.map_congr_left (fun c hc => (h c hc).replace)

theorem collapse_head (d : Char) (t : GoString) :
    (collapseUnderscores (d :: t)).head? = some d := by
  induction t generalizing d with
  | nil => rfl
  | cons e t ih =>
    rw [collapseUnderscores]
    split_ifs with h
    · rw [ih e, h.1, h.2]
    · rfl

theorem collapse_noDouble (s : GoString) : NoDouble (collapseUnderscores s) := by
  induction s with
  | nil => exact List.chain'_nil
  | cons c t ih =>
    cases t with
    | nil => exact List.chain'_singleton c
    | cons d t =>
      rw [collapseUnderscores]
      split_ifs with h
      · exact ih
      · refine List.chain'_cons'.2 ⟨?_, ih⟩
        intro y hy
        rw [collapse_head] at hy
        cases hy
        exact h

theorem collapse_mem (s : GoString) : ∀ c ∈ collapseUnderscores s, c ∈ s := by
  induction s with
  | nil => simp [collapseUnderscores]
  | cons c t ih =>
    cases t with
    | nil => simp [collapseUnderscores]
    | cons d t =>
      intro x hx
      rw [collapseUnderscores] at hx
      split_ifs at hx with h
      · exact List.mem_cons_of_mem _ (ih x hx)
      · rcases List.mem_cons.1 hx with rfl | hx
        · exact List.mem_cons_self _ _
        · exact List.mem_cons_of_mem _ (ih x hx)

theorem collapse_of_noDouble {s : GoString} (h : NoDouble s) : collapseUnderscores s = s := by
  induction s with
  | nil => rfl
  | cons c t ih =>
    cases t with
    | nil => rfl
    | cons d t =>
      have h2 := List.chain'_cons.1 h
      rw [collapseUnderscores, if_neg h2.1, ih h2.2]

/-! ## Trimming -/

theorem getLast?_dropWhile {p : Char → Bool} {a : Char} (ha : p a = false) :
    ∀ m : GoString, m.getLast? = some a → (m.dropWhile p).getLast? = some a := by
  intro m
  induction m with
  | nil => intro h; simp at h
  | cons x m ih =>
    intro h
    rw [List.dropWhile_cons]
    split_ifs with hx
    · cases m with
      | nil =>
        simp at h
        rw [h, ha] at hx
        exact absurd hx (by simp)
      | cons y m =>
        rw [List.getLast?_cons_cons] at h
        exact ih h
    · exact h

theorem dropWhile_eq_self {p : Char → Bool} {s : GoString}
    (h : ∀ a, s.head? = some a → p a = false) : s.dropWhile p = s := by
  cases s with
  | nil => rfl
  | cons x t =>
    have := h x rfl
    simp [List.dropWhile_cons, this]

theorem dropWhile_head {p : Char → Bool} (s : GoString) :
    ∀ a, (s.dropWhile p).head? = some a → p a = false := by
  induction s with
  | nil => intro a h; simp at h
  | cons x t ih =>
    intro a h
    rw [List.dropWhile_cons] at h
    split_ifs at h with hx
    · exact ih a h
    · simp at h
      rw [← h]
      simpa using hx

/-- Trimming at both ends with one predicate, the shape of `strings.Trim` and
`strings.TrimSpace`. -/
theorem trim_head {p : Char → Bool} (s : GoString) :
    ∀ a, ((s.dropWhile p).reverse.dropWhile p).reverse.head? = some a → p a = false := by
  intro a h
  rw [List.head?_reverse] at h
  cases hd : (s.dropWhile p).head? with
  | none =>
    have : s.dropWhile p = [] := by simpa using hd
    rw [this] at h
    simp at h
  | some b =>
    have hb := dropWhile_head s b hd
    have := getLast?_dropWhile hb (s.dropWhile p).reverse (by rw [List.getLast?_reverse]; exact hd)
    rw [this] at h
    cases h
    exact hb

theorem trim_last {p : Char → Bool} (s : GoString) :
    ∀ a, ((s.dropWhile p).reverse.dropWhile p).reverse.getLast? = some a → p a = false := by
  intro a h
  rw [List.getLast?_reverse] at h
  exact dropWhile_head _ a h

theorem trim_infix {p : Char → Bool} (s : GoString) :
    ((s.dropWhile p).reverse.dropWhile p).reverse <:+: s := by
  have h1 : (s.dropWhile p).reverse.dropWhile p <:+ (s.dropWhile p).reverse :=
    List.dropWhile_suffix p
  have h2 : ((s.dropWhile p).reverse.dropWhile p).reverse <+: s.dropWhile p := by
    have := List.reverse_prefix.2 h1
    simpa using this
  exact h2.isInfix.trans (List.dropWhile_suffix p).isInfix

theorem trim_eq_self {p : Char → Bool} {s : GoString}
    (h1 : ∀ a, s.head? = some a → p a = false)
    (h2 : ∀ a, s.getLast? = some a → p a = false) :
    ((s.dropWhile p).reverse.dropWhile p).reverse = s := by
  rw [dropWhile_eq_self h1, dropWhile_eq_self, List.reverse_reverse]
  intro a ha
  rw [List.head?_reverse] at ha
  exact h2 a ha


theorem trimUnderscores_head (s : GoString) : (trimUnderscores s).head? ≠ some '_' := by
  intro h
  have := trim_head s '_' h
  simp at this

theorem trimUnderscores_last (s : GoString) : (trimUnderscores s).getLast? ≠ some '_' := by
  intro h
  have := trim_last s '_' h
  simp at this

theorem trimUnderscores_infix (s : GoString) : trimUnderscores s <:+: s := trim_infix s

theorem trimUnderscores_of_trimmed {s : GoString} (h1 : s.head? ≠ some '_')
    (h2 : s.getLast? ≠ some '_') : trimUnderscores s = s := by
  apply trim_eq_self
  · intro a ha
    simp only [beq_eq_false_iff_ne]
    rintro rfl
    exact h1 ha
  · intro a ha
    simp only [beq_eq_false_iff_ne]
    rintro rfl
    exact h2 ha

/-! ## The extension -/

theorem extScan_nil_of_no_dot : ∀ (r acc : GoString), '.' ∉ r → extScan r acc = [] := by
  intro r
  induction r with
  | nil => intro acc _; rfl
  | cons c r ih =>
    intro acc h
    have hc : c ≠ '.' := fun e => h (e ▸ List.mem_cons_self _ _)
    have hr : '.' ∉ r := fun e => h (List.mem_cons_of_mem _ e)
    rw [extScan]
    split_ifs
    · rfl
    · exact ih _ hr

theorem filepathExt_of_no_dot {s : GoString} (h : '.' ∉ s) : filepathExt s = [] := by
  unfold filepathExt
  exact extScan_nil_of_no_dot _ _ (by simpa using h)

/-! ## The base name -/

theorem takeWhile_append_stop {p : Char → Bool} (m q : GoString)
    (hm : ∀ c ∈ m, p c = true) (hq : ∀ a, q.head? = some a → p a = false) :
    (m ++ q).takeWhile p = m := by
  induction m with
  | nil =>
    cases q with
    | nil => rfl
    | cons x q =>
      have := hq x rfl
      simp [List.takeWhile_cons, this]
  | cons c m ih =>
    have hc := hm c (List.mem_cons_self _ _)
    rw [List.cons_append, List.takeWhile_cons, hc]
    simp only [if_true]
    rw [ih (fun d hd => hm d (List.mem_cons_of_mem _ hd))]

theorem filepathBase_of_last {q m : GoString} (hq : q = [] ∨ q.getLast? = some '/')
    (hm : m ≠ []) (hs : '/' ∉ m) : filepathBase (q ++ m) = m := by
  have hne : q ++ m ≠ [] := by simp [hm]
  have hlast : ∀ a, (q ++ m).reverse.head? = some a → (a == '/') = false := by
    intro a ha
    rw [List.head?_reverse, List.getLast?_append_of_ne_nil _ hm] at ha
    simp only [beq_eq_false_iff_ne]
    rintro rfl
    exact hs (List.mem_of_getLast?_eq_some ha)
  have hstrip : stripTrailingSeparators (q ++ m) = q ++ m := by
    unfold stripTrailingSeparators
    rw [dropWhile_eq_self hlast, List.reverse_reverse]
  have hlastEl : lastElement (q ++ m) = m := by
    unfold lastElement
    rw [List.reverse_append, takeWhile_append_stop, List.reverse_reverse]
    · intro c hc
      have : c ∈ m := by simpa using hc
      simp only [bne_iff_ne, ne_eq]
      rintro rfl
      exact hs this
    · intro a ha
      rw [List.head?_reverse] at ha
      rcases hq with rfl | hq
      · simp at ha
      · rw [hq] at ha
        cases ha
        rfl
  unfold filepathBase
  rw [if_neg hne]
  simp only [hstrip, hlastEl, if_neg hm]

/-! ## Removing `_pdf` -/

theorem removeAux_skip (old : GoString) :
    ∀ (s : GoString) (k : Nat), removeAux old k s = removeAux old 0 (s.drop k) := by
  intro s
  induction s with
  | nil => intro k; cases k <;> rfl
  | cons c t ih =>
    intro k
    cases k with
    | zero => rfl
    | succ k => rw [removeAux, ih k, List.drop_succ_cons]

theorem remove_hit (rest : GoString) :
    removeAux "_pdf".toList 0 ('_' :: 'p' :: 'd' :: 'f' :: rest) =
      removeAux "_pdf".toList 0 rest := by
  have hp : List.isPrefixOf "_pdf".toList ('_' :: 'p' :: 'd' :: 'f' :: rest) = true := by
    rw [ List.isPrefixOf_iff_prefix]
    exact ⟨rest, rfl⟩
  rw [removeAux, if_pos hp, removeAux_skip]
  rfl

theorem remove_miss {c : Char} {t : GoString} (h : ¬ ("_pdf".toList <+: c :: t)) :
    removeAux "_pdf".toList 0 (c :: t) = c :: removeAux "_pdf".toList 0 t := by
  have hp : ¬ List.isPrefixOf "_pdf".toList (c :: t) = true := by
    rw [ List.isPrefixOf_iff_prefix]
    exact h
  rw [removeAux, if_neg hp]

theorem pdf_prefix_iff (s : GoString) :
    "_pdf".toList <+: s ↔ ∃ rest, s = '_' :: 'p' :: 'd' :: 'f' :: rest := by
  constructor
  · rintro ⟨r, rfl⟩; exact ⟨r, rfl⟩
  · rintro ⟨r, rfl⟩; exact ⟨r, rfl⟩

/-- Case analysis along the scan of `removeAux` for `_pdf`. -/
theorem remove_induction {P : GoString → Prop} (hnil : P [])
    (hhit : ∀ rest, P rest → P ('_' :: 'p' :: 'd' :: 'f' :: rest))
    (hmiss : ∀ c t, ¬ ("_pdf".toList <+: c :: t) → P t → P (c :: t)) :
    ∀ s, P s := by
  intro s
  generalize hn : s.length = n
  induction n using Nat.strong_induction_on generalizing s with
  | _ n ih =>
    cases s with
    | nil => exact hnil
    | cons c t =>
      by_cases hp : "_pdf".toList <+: c :: t
      · obtain ⟨rest, hr⟩ := (pdf_prefix_iff _).1 hp
        rw [hr]
        refine hhit rest (ih rest.length ?_ rest rfl)
        rw [← hn, hr]
        simp only [List.length_cons]
        omega
      · refine hmiss c t hp (ih t.length ?_ t rfl)
        rw [← hn]
        simp

theorem remove_mem (s : GoString) : ∀ c ∈ removeAux "_pdf".toList 0 s, c ∈ s := by
  induction s using remove_induction with
  | hnil => intro c hc; simp [removeAux] at hc
  | hhit rest ih =>
    intro c hc
    rw [remove_hit] at hc
    have := ih c hc
    simp [this]
  | hmiss c t hp ih =>
    intro x hx
    rw [remove_miss hp] at hx
    rcases List.mem_cons.1 hx with rfl | hx
    · exact List.mem_cons_self _ _
    · exact List.mem_cons_of_mem _ (ih x hx)

theorem remove_head {s : GoString} (h : s.head? ≠ some '_') :
    (removeAux "_pdf".toList 0 s).head? = s.head? := by
  cases s with
  | nil => rfl
  | cons c t =>
    have hc : c ≠ '_' := fun e => h (by rw [e]; rfl)
    have hp : ¬ ("_pdf".toList <+: c :: t) := by
      rw [pdf_prefix_iff]
      rintro ⟨r, hr⟩
      exact hc (List.cons.inj hr).1
    rw [remove_miss hp]
    rfl

theorem remove_noDouble (s : GoString) :
    NoDouble s → s.getLast? ≠ some '_' →
      NoDouble (removeAux "_pdf".toList 0 s) ∧
        (removeAux "_pdf".toList 0 s).getLast? ≠ some '_' := by
  induction s using remove_induction with
  | hnil => intro _ _; exact ⟨List.chain'_nil, by simp [removeAux]⟩
  | hhit rest ih =>
    intro hch hl
    rw [remove_hit]
    have hsuf : rest <:+ '_' :: 'p' :: 'd' :: 'f' :: rest := ⟨['_', 'p', 'd', 'f'], rfl⟩
    apply ih (List.Chain'.suffix hch hsuf)
    intro h
    apply hl
    cases rest with
    | nil => simp at h
    | cons x r => simpa [List.getLast?_cons_cons] using h
  | hmiss c t hp ih =>
    intro hch hl
    rw [remove_miss hp]
    have hcht : NoDouble t := List.Chain'.tail hch
    cases t with
    | nil =>
      have e : removeAux "_pdf".toList 0 [] = [] := rfl
      rw [e]
      exact ⟨List.chain'_singleton c, hl⟩
    | cons d t =>
      have hlt : (d :: t).getLast? ≠ some '_' := by
        rwa [List.getLast?_cons_cons] at hl
      obtain ⟨ih1, ih2⟩ := ih hcht hlt
      have hcd : ¬ (c = '_' ∧ d = '_') := (List.chain'_cons.1 hch).1
      by_cases hc : c = '_'
      · have hd : d ≠ '_' := fun e => hcd ⟨hc, e⟩
        have hhead : (removeAux "_pdf".toList 0 (d :: t)).head? = some d :=
          remove_head (s := d :: t) (fun e => hd (by simpa using e))
        obtain ⟨r, hr⟩ : ∃ r, removeAux "_pdf".toList 0 (d :: t) = d :: r := by
          cases hrm : removeAux "_pdf".toList 0 (d :: t) with
          | nil => rw [hrm] at hhead; simp at hhead
          | cons y r =>
            rw [hrm] at hhead
            simp at hhead
            exact ⟨r, by rw [hhead]⟩
        rw [hr] at ih1 ih2 ⊢
        refine ⟨List.chain'_cons.2 ⟨fun e => hd e.2, ih1⟩, ?_⟩
        rwa [List.getLast?_cons_cons]
      · constructor
        · refine List.chain'_cons'.2 ⟨?_, ih1⟩
          intro y _ e
          exact hc e.1
        · cases hrm : removeAux "_pdf".toList 0 (d :: t) with
          | nil => simpa using hc
          | cons y r =>
            rw [List.getLast?_cons_cons, ← hrm]
            exact ih2

theorem remove_append_pdf (s : GoString) (h : ¬ ("_pdf".toList <:+: s)) :
    removeAux "_pdf".toList 0 (s ++ "_pdf".toList) = s := by
  induction s with
  | nil => exact (remove_hit []).trans rfl
  | cons c t ih =>
    have ht : ¬ ("_pdf".toList <:+: t) := fun e => h (e.trans (List.suffix_cons c t).isInfix)
    have hp : ¬ ("_pdf".toList <+: c :: (t ++ "_pdf".toList)) := by
      rw [pdf_prefix_iff]
      rintro ⟨r, hr⟩
      apply h
      have hc : c = '_' := (List.cons.inj hr).1
      have htl : t ++ "_pdf".toList = 'p' :: 'd' :: 'f' :: r := (List.cons.inj hr).2
      have e : "_pdf".toList = ['_', 'p', 'd', 'f'] := rfl
      rw [e] at htl
      match t, htl with
      | [], htl => simp at htl
      | [_], htl => simp at htl
      | [_, _], htl => simp at htl
      | x :: y :: z :: t', htl =>
        simp only [List.cons_append, List.cons.injEq] at htl
        obtain ⟨rfl, rfl, rfl, _⟩ := htl
        rw [hc]
        exact (List.prefix_append ['_', 'p', 'd', 'f'] t').isInfix
    rw [List.cons_append, remove_miss hp, ih ht]

/-! ## The sanitizer as a whole -/

theorem urlToFilename_eq (u : GoString) :
    urlToFilename u = sanitizedStem u ++ ".pdf".toList ∧
      (∀ c ∈ sanitizedStem u, SafeChar c) ∧ NoDouble (sanitizedStem u) ∧
      (sanitizedStem u).head? ≠ some '_' ∧ (sanitizedStem u).getLast? ≠ some '_' := by
  have hinf := trimUnderscores_infix
    (collapseUnderscores (replaceNonAlnum (getFilename (toLower u))))
  have hsafeT : ∀ c ∈ trimUnderscores
      (collapseUnderscores (replaceNonAlnum (getFilename (toLower u)))), SafeChar c :=
    fun c hc => replaceNonAlnum_safe _ c (collapse_mem _ c (hinf.subset hc))
  have hndT : NoDouble (trimUnderscores
      (collapseUnderscores (replaceNonAlnum (getFilename (toLower u))))) :=
    List.Chain'.infix (collapse_noDouble _) hinf
  have hsafe : ∀ c ∈ sanitizedStem u, SafeChar c :=
    fun c hc => hsafeT c (remove_mem _ c hc)
  have hgood := remove_noDouble _ hndT (trimUnderscores_last _)
  have hhead : (sanitizedStem u).head? ≠ some '_' := by
    unfold sanitizedStem
    rw [remove_head (trimUnderscores_head _)]
    exact trimUnderscores_head _
  refine ⟨?_, hsafe, hgood.1, hhead, hgood.2⟩
  have hdot : '.' ∉ sanitizedStem u := fun h => (hsafe _ h).ne_dot rfl
  have hext : getFileExtension (sanitizedStem u) ≠ ".pdf".toList := by
    unfold getFileExtension
    rw [filepathExt_of_no_dot hdot]
    decide
  have hfold : invalidSubstrings.foldl removeSubstring
      (trimUnderscores (collapseUnderscores (replaceNonAlnum (getFilename (toLower u))))) =
      sanitizedStem u := by
    simp only [invalidSubstrings, List.foldl_cons, List.foldl_nil, removeSubstring]
    rw [if_neg (by decide)]
    rfl
  unfold urlToFilename
  simp only [hfold]
  rw [if_pos hext]

theorem dot_pdf_unique {s pre post x : GoString} (hs : '.' ∉ s) (hx : '.' ∉ x)
    (h : s ++ '.' :: x = pre ++ '.' :: x ++ post) : pre = s ∧ post = [] := by
  rw [List.append_assoc, List.cons_append] at h
  rcases List.append_eq_append_iff.1 h with ⟨a, ha, hb⟩ | ⟨c, hc, hd⟩
  · cases a with
    | nil =>
      simp only [List.nil_append, List.cons.injEq, true_and] at hb
      refine ⟨by simpa using ha, ?_⟩
      have := congrArg List.length hb
      simp only [List.length_append] at this
      exact List.length_eq_zero.1 (by omega)
    | cons y a =>
      simp only [List.cons_append, List.cons.injEq] at hb
      exact absurd (by rw [hb.2]; simp) hx
  · cases c with
    | nil =>
      simp only [List.nil_append, List.cons.injEq, true_and] at hd
      refine ⟨by simpa using hc.symm, ?_⟩
      have := congrArg List.length hd
      simp only [List.length_append] at this
      exact List.length_eq_zero.1 (by omega)
    | cons y c =>
      simp only [List.cons_append, List.cons.injEq] at hd
      exact absurd (by rw [hc, ← hd.1]; simp) hs

theorem urlToFilename_canonical (p s : GoString) (hp : p = [] ∨ p.getLast? = some '/')
    (hne : s ≠ []) (hsafe : ∀ c ∈ s, SafeChar c) (hnd : NoDouble s)
    (hh : s.head? ≠ some '_') (hl : s.getLast? ≠ some '_')
    (hpdf : ¬ ("_pdf".toList <:+: s)) :
    urlToFilename (p ++ s ++ ".pdf".toList) = s ++ ".pdf".toList := by
  have hstem : sanitizedStem (p ++ s ++ ".pdf".toList) = s := by
    unfold sanitizedStem
    have h1 : toLower (p ++ s ++ ".pdf".toList) = toLower p ++ (s ++ ".pdf".toList) := by
      have hs : toLower s = s := by
        unfold toLower
        conv_rhs => rw [← List.map_id s]
        exact List.map_congr_left (fun c hc => (hsafe c hc).toLowerRune)
      have hd : toLower ".pdf".toList = ".pdf".toList := by decide
      unfold toLower at hs hd ⊢
      rw [List.append_assoc, List.map_append, List.map_append, hs, hd]
    have h2 : toLower p = [] ∨ (toLower p).getLast? = some '/' := by
      rcases hp with rfl | hp
      · exact Or.inl rfl
      · right
        unfold toLower
        rw [List.getLast?_map, hp]
        decide
    have h3 : getFilename (toLower p ++ (s ++ ".pdf".toList)) = s ++ ".pdf".toList := by
      unfold getFilename
      apply filepathBase_of_last h2 (by simp [hne])
      intro hm
      rcases List.mem_append.1 hm with hm | hm
      · exact (hsafe _ hm).ne_slash rfl
      · revert hm; decide
    have h4 : replaceNonAlnum (s ++ ".pdf".toList) = s ++ "_pdf".toList := by
      have := replaceNonAlnum_of_safe hsafe
      have hd : replaceNonAlnum ".pdf".toList = "_pdf".toList := by decide
      unfold replaceNonAlnum at this hd ⊢
      rw [List.map_append, this, hd]
    have hnd2 : NoDouble (s ++ "_pdf".toList) := by
      have hc : NoDouble "_pdf".toList := by
        show List.Chain' _ ['_', 'p', 'd', 'f']
        simp
      refine List.Chain'.append hnd hc ?_
      intro x hx y _ hxy
      exact hl (by rw [← hxy.1]; exact hx)
    have h6 : trimUnderscores (s ++ "_pdf".toList) = s ++ "_pdf".toList := by
      apply trimUnderscores_of_trimmed
      · rwa [List.head?_append_of_ne_nil _ hne]
      · rw [List.getLast?_append_of_ne_nil _ (by decide)]
        decide
    rw [h1, h3, h4, collapse_of_noDouble hnd2, h6, remove_append_pdf s hpdf]
  rw [(urlToFilename_eq _).1, hstem]

theorem noDouble_of_not_mem {s : GoString} (h : '_' ∉ s) : NoDouble s := by
  induction s with
  | nil => exact List.chain'_nil
  | cons c t ih =>
    refine List.chain'_cons'.2 ⟨?_, ih (fun e => h (List.mem_cons_of_mem _ e))⟩
    intro y _ hab
    exact h (hab.1 ▸ List.mem_cons_self _ _)

/-! ## Claims about the sanitizer -/

/-- C1: for every non-empty name `n` made only of the characters a-z and 0-9,
and every prefix `p` that is empty or ends with a slash, `urlToFilename`
maps `p ++ n ++ ".pdf"` to exactly `n ++ ".pdf"`. -/
theorem urlToFilename_lowercase_basename (p n : GoString) (hn : n ≠ [])
    (hchars : ∀ c ∈ n, ('a' ≤ c ∧ c ≤ 'z') ∨ ('0' ≤ c ∧ c ≤ '9'))
    (hp : p = [] ∨ p.getLast? = some '/') :
    urlToFilename (p ++ n ++ ".pdf".toList) = n ++ ".pdf".toList := by
  have hal : ∀ c ∈ n, isLowerAlnum c = true := by
    intro c hc
    simpa [isLowerAlnum] using hchars c hc
  have hsafe : ∀ c ∈ n, SafeChar c := fun c hc => Or.inl (hal c hc)
  have hno : '_' ∉ n := fun h => lowerAlnum_ne_underscore (hal _ h) rfl
  have hnd : NoDouble n := noDouble_of_not_mem hno
  have hh : n.head? ≠ some '_' := fun h => hno (List.mem_of_mem_head? h)
  have hl : n.getLast? ≠ some '_' := fun h => hno (List.mem_of_getLast?_eq_some h)
  have hpdf : ¬ ("_pdf".toList <:+: n) :=
    fun h => hno (h.subset (by decide))
  exact urlToFilename_canonical p n hp hn hsafe hnd hh hl hpdf

/-- Instance of C1 at `https://site/manual.pdf`. -/
theorem urlToFilename_lowercase_basename_witness :
    urlToFilename "https://site/manual.pdf".toList = "manual.pdf".toList :=
  urlToFilename_lowercase_basename "https://site/".toList "manual".toList (by decide)
    (by decide) (Or.inr (by decide))

/-- C2: for every input, `urlToFilename` returns `s ++ ".pdf"` where `s` has
only characters from a-z, 0-9 and `_`, no two consecutive underscores, no
underscore at either end, and `.pdf` occurs in the result only as its last
four characters. -/
theorem urlToFilename_shape (u : GoString) :
    ∃ s : GoString, urlToFilename u = s ++ ".pdf".toList ∧
      (∀ c ∈ s, ('a' ≤ c ∧ c ≤ 'z') ∨ ('0' ≤ c ∧ c ≤ '9') ∨ c = '_') ∧
      ¬ ("__".toList <:+: s) ∧ s.head? ≠ some '_' ∧ s.getLast? ≠ some '_' ∧
      ∀ pre post : GoString,
        urlToFilename u = pre ++ ".pdf".toList ++ post → pre = s ∧ post = [] := by
  obtain ⟨heq, hsafe, hnd, hh, hl⟩ := urlToFilename_eq u
  refine ⟨sanitizedStem u, heq, ?_, hnd.not_infix, hh, hl, ?_⟩
  · intro c hc
    rcases hsafe c hc with h | h
    · simp only [isLowerAlnum, Bool.or_eq_true, Bool.and_eq_true, decide_eq_true_eq] at h
      rcases h with h | h
      · exact Or.inl h
      · exact Or.inr (Or.inl h)
    · exact Or.inr (Or.inr h)
  · intro pre post h
    rw [heq] at h
    have hdot : '.' ∉ sanitizedStem u := fun h => (hsafe _ h).ne_dot rfl
    exact dot_pdf_unique hdot (by decide) h

/-- The mixed-case example of C2. -/
theorem urlToFilename_mixed_case_example :
    urlToFilename "https://site/docs/Manual-V2 (Final)_pdf.PDF".toList =
      "manual_v2_final.pdf".toList := by
  decide

/-- C3, refuted as stated: a basename without letters or digits is sanitized
to `.pdf`, and sanitizing `.pdf` gives `pdf.pdf`. -/
theorem urlToFilename_not_idempotent :
    urlToFilename "https://site/docs/--".toList = ".pdf".toList ∧
      urlToFilename (urlToFilename "https://site/docs/--".toList) = "pdf.pdf".toList ∧
      urlToFilename (urlToFilename "https://site/docs/--".toList) ≠
        urlToFilename "https://site/docs/--".toList := by
  decide

/-- C3, amended: when the sanitized filename is not the bare extension `.pdf`
and contains no `_pdf`, sanitizing it again returns it unchanged. -/
theorem urlToFilename_idempotent_of_clean (u : GoString)
    (hne : urlToFilename u ≠ ".pdf".toList)
    (hpdf : ¬ ("_pdf".toList <:+: urlToFilename u)) :
    urlToFilename (urlToFilename u) = urlToFilename u := by
  obtain ⟨heq, hsafe, hnd, hh, hl⟩ := urlToFilename_eq u
  have hs : sanitizedStem u ≠ [] := by
    intro h
    rw [heq, h] at hne
    exact hne rfl
  have hp : ¬ ("_pdf".toList <:+: sanitizedStem u) := by
    intro h
    apply hpdf
    rw [heq]
    exact h.trans (List.prefix_append _ _).isInfix
  have := urlToFilename_canonical [] (sanitizedStem u) (Or.inl rfl) hs hsafe hnd hh hl hp
  rw [heq]
  simpa using this

/-- Instance of the amended C3 at `https://site/Manual-V2.PDF`. -/
theorem urlToFilename_idempotent_of_clean_witness :
    urlToFilename "https://site/Manual-V2.PDF".toList ≠ ".pdf".toList ∧
      ¬ ("_pdf".toList <:+: urlToFilename "https://site/Manual-V2.PDF".toList) ∧
      urlToFilename (urlToFilename "https://site/Manual-V2.PDF".toList) =
        urlToFilename "https://site/Manual-V2.PDF".toList :=
  ⟨by decide, by decide,
    urlToFilename_idempotent_of_clean "https://site/Manual-V2.PDF".toList (by decide)
      (by decide)⟩

/-- C10, evaluated at `https://en.walkera.com/docs/a_p_pdfdf.pdf`: the single
left-to-right pass of `removeSubstring` removes the `_pdf` of `a_p_pdfdf` and
thereby joins `_p` and `df` into a new `_pdf`, which stays in the result. -/
theorem urlToFilename_keeps_pdf_marker :
    urlToFilename "https://en.walkera.com/docs/a_p_pdfdf.pdf".toList = "a_pdf.pdf".toList ∧
      "_pdf".toList <:+: urlToFilename "https://en.walkera.com/docs/a_p_pdfdf.pdf".toList := by
  decide


/-! ## Link extraction -/

theorem stringsContains_iff (s sub : GoString) :
    stringsContains s sub = true ↔ sub <:+: s := by
  unfold stringsContains
  rw [List.any_eq_true, List.infix_iff_prefix_suffix]
  constructor
  · rintro ⟨t, ht, hp⟩
    exact ⟨t, List.isPrefixOf_iff_prefix.1 hp, (List.mem_tails _ _).1 ht⟩
  · rintro ⟨t, hp, ht⟩
    exact ⟨t, (List.mem_tails _ _).2 ht, List.isPrefixOf_iff_prefix.2 hp⟩

theorem foldl_scanAttr (attr : List Attribute) :
    ∀ pdfLinks : List GoString,
      attr.foldl scanAttr pdfLinks =
        pdfLinks ++
          ((attr.filter (fun a => a.key = "href".toList)).map (fun a => trimSpace a.val)).filter
            (fun href => ".pdf".toList <:+: toLower href) := by
  induction attr with
  | nil => intro pdfLinks; simp
  | cons a rest ih =>
    intro pdfLinks
    rw [List.foldl_cons, ih]
    unfold scanAttr
    by_cases hk : a.key = "href".toList
    · rw [if_pos hk, List.filter_cons_of_pos (by simpa using hk), List.map_cons]
      by_cases hc : ".pdf".toList <:+: toLower (trimSpace a.val)
      · rw [if_pos ((stringsContains_iff _ _).2 hc), List.filter_cons_of_pos (by simpa using hc),
          List.append_assoc, List.singleton_append]
      · rw [if_neg (fun e => hc ((stringsContains_iff _ _).1 e)),
          List.filter_cons_of_neg (by simpa using hc)]
    · rw [if_neg hk, List.filter_cons_of_neg (by simpa using hk)]

mutual
theorem traverse_eq : ∀ (n : Node) (pdfLinks : List GoString),
    traverse n pdfLinks = pdfLinks ++ (preorder n).flatMap anchorLinks
  | .mk type data attr children, pdfLinks => by
    rw [traverse, preorder, List.flatMap_cons, traverseChildren_eq children]
    by_cases h : type = NodeType.ElementNode ∧ data = "a".toList
    · have ha : isAnchor (Node.mk type data attr children) = true := by
        unfold isAnchor
        exact decide_eq_true h
      simp only [anchorLinks, ha, if_pos h, if_true]
      rw [foldl_scanAttr, List.append_assoc]
    · have ha : isAnchor (Node.mk type data attr children) = false := by
        unfold isAnchor
        exact decide_eq_false h
      simp only [anchorLinks, ha, if_neg h, Bool.false_eq_true, if_false, List.nil_append]
theorem traverseChildren_eq : ∀ (cs : List Node) (pdfLinks : List GoString),
    traverseChildren cs pdfLinks = pdfLinks ++ (preorderAll cs).flatMap anchorLinks
  | [], pdfLinks => by simp [traverseChildren, preorderAll]
  | c :: rest, pdfLinks => by
    rw [traverseChildren, traverse_eq c, traverseChildren_eq rest, preorderAll,
      List.flatMap_append, List.append_assoc]
end

theorem anchorLinks_of_not_anchor {n : Node} (h : isAnchor n = false) : anchorLinks n = [] := by
  cases n with
  | mk type data attr children => simp [anchorLinks, h]

/-- C4: when the page parses to the tree `doc`, `extractPDFUrls` returns exactly
the list of the document-order walk: for each element named `a`, in depth-first
pre-order, the trimmed value of each `href` attribute whose lower-case form
contains `.pdf`, duplicates kept; a tree without anchors gives the empty list. -/
theorem extractPDFUrls_document_order (parse : GoString → Except GoString Node)
    (htmlInput : GoString) (doc : Node) (h : parse htmlInput = Except.ok doc) :
    extractPDFUrls parse htmlInput = documentOrderLinks doc ∧
      ((∀ n ∈ preorder doc, isAnchor n = false) → extractPDFUrls parse htmlInput = []) := by
  have heq : extractPDFUrls parse htmlInput = documentOrderLinks doc := by
    unfold extractPDFUrls documentOrderLinks
    rw [h]
    simp only
    rw [traverse_eq, List.nil_append]
  refine ⟨heq, fun hno => ?_⟩
  rw [heq]
  unfold documentOrderLinks
  rw [List.flatMap_eq_nil_iff]
  intro n hn
  exact anchorLinks_of_not_anchor (hno n hn)

/-- Instance of C4 at the example page: the `link` element and the anchor to
`manual.txt` give nothing, the anchor to `Manual.PDF` gives its trimmed value
and the repeated anchor to `docs/x.pdf` gives it twice, in document order. -/
theorem extractPDFUrls_document_order_witness :
    extractPDFUrls (fun _ => Except.ok samplePage) [] = documentOrderLinks samplePage ∧
      documentOrderLinks samplePage =
        ["Manual.PDF".toList, "docs/x.pdf".toList, "docs/x.pdf".toList] :=
  ⟨(extractPDFUrls_document_order (fun _ => Except.ok samplePage) [] samplePage rfl).1,
    by decide⟩

/-! ## The downloader -/

theorem toLower_urlToFilename (u : GoString) :
    toLower (urlToFilename u) = urlToFilename u := by
  obtain ⟨heq, hsafe, -⟩ := urlToFilename_eq u
  rw [heq]
  have hs : toLower (sanitizedStem u) = sanitizedStem u := by
    unfold toLower
    conv_rhs => rw [← List.map_id (sanitizedStem u)]
    exact List.map_congr_left (fun c hc => (hsafe c hc).toLowerRune)
  have hd : toLower ".pdf".toList = ".pdf".toList := by decide
  unfold toLower at hs hd ⊢
  rw [List.map_append, hs, hd]

theorem downloadPDF_exists (join : GoString → GoString → GoString) (o : Outcome)
    (finalURL outputDir : GoString) (w : World)
    (hex : fileExists w (join outputDir (urlToFilename finalURL)) = true) :
    downloadPDF join o finalURL outputDir w = (false, w) := by
  unfold downloadPDF
  simp only [toLower_urlToFilename]
  rw [if_pos hex]

theorem downloadPDF_transport (join : GoString → GoString → GoString) (o : Outcome)
    (finalURL outputDir : GoString) (w : World)
    (hex : fileExists w (join outputDir (urlToFilename finalURL)) = false)
    (hget : o.get = none) :
    downloadPDF join o finalURL outputDir w =
      (false, ⟨w.files, w.requests ++ [finalURL]⟩) := by
  unfold downloadPDF
  simp only [toLower_urlToFilename]
  rw [if_neg (by rw [hex]; exact Bool.false_ne_true)]
  simp only [hget]

theorem downloadPDF_guard (join : GoString → GoString → GoString) (o : Outcome)
    (finalURL outputDir : GoString) (w : World) (resp : Response)
    (hex : fileExists w (join outputDir (urlToFilename finalURL)) = false)
    (hget : o.get = some resp)
    (hbad : resp.statusCode ≠ 200 ∨
      stringsContains resp.contentType "application/pdf".toList = false ∨
      resp.readFailed = true ∨ resp.body = [] ∨ o.createFails = true) :
    downloadPDF join o finalURL outputDir w =
      (false, ⟨w.files, w.requests ++ [finalURL]⟩) := by
  unfold downloadPDF
  simp only [toLower_urlToFilename]
  rw [if_neg (by rw [hex]; exact Bool.false_ne_true)]
  simp only [hget]
  by_cases h1 : resp.statusCode ≠ 200
  · rw [if_pos h1]
  rw [if_neg h1]
  by_cases h2 : (!stringsContains resp.contentType "application/pdf".toList) = true
  · rw [if_pos h2]
  rw [if_neg h2]
  by_cases h3 : resp.readFailed = true
  · rw [if_pos h3]
  rw [if_neg h3]
  by_cases h4 : resp.body.length = 0
  · rw [if_pos h4]
  rw [if_neg h4]
  by_cases h5 : o.createFails = true
  · rw [if_pos h5]
  exfalso
  rcases hbad with h | h | h | h | h
  · exact h1 h
  · exact h2 (by rw [h]; rfl)
  · exact h3 h
  · exact h4 (by rw [h]; rfl)
  · exact h5 h

theorem downloadPDF_write (join : GoString → GoString → GoString) (o : Outcome)
    (finalURL outputDir : GoString) (w : World) (resp : Response)
    (hex : fileExists w (join outputDir (urlToFilename finalURL)) = false)
    (hget : o.get = some resp) (hstatus : resp.statusCode = 200)
    (hct : stringsContains resp.contentType "application/pdf".toList = true)
    (hread : resp.readFailed = false) (hbody : resp.body ≠ [])
    (hcreate : o.createFails = false) :
    downloadPDF join o finalURL outputDir w =
      if o.writeFails then
        (false, ⟨Function.update w.files (join outputDir (urlToFilename finalURL))
          (some (FileInfo.file (resp.body.take o.bytesWritten))), w.requests ++ [finalURL]⟩)
      else
        (true, ⟨Function.update w.files (join outputDir (urlToFilename finalURL))
          (some (FileInfo.file resp.body)), w.requests ++ [finalURL]⟩) := by
  unfold downloadPDF
  simp only [toLower_urlToFilename]
  rw [if_neg (by rw [hex]; exact Bool.false_ne_true)]
  simp only [hget]
  rw [if_neg (by rw [hstatus]; exact fun h => h rfl), if_neg (by rw [hct]; decide),
    if_neg (by rw [hread]; exact Bool.false_ne_true),
    if_neg (fun h => hbody (List.length_eq_zero.1 h)),
    if_neg (by rw [hcreate]; exact Bool.false_ne_true)]
  simp only [Function.update_idem]

/-- C5: `downloadPDF` returns false and leaves the file system as it was when
the destination file exists, or the status is not 200, or the content type
does not contain `application/pdf`, or the body has no bytes; and when the
destination file exists it issues no request. -/
theorem downloadPDF_rejects (join : GoString → GoString → GoString) (o : Outcome)
    (finalURL outputDir : GoString) (w : World)
    (h : fileExists w (join outputDir (urlToFilename finalURL)) = true ∨
      ∃ resp, o.get = some resp ∧
        (resp.statusCode ≠ 200 ∨ ¬ ("application/pdf".toList <:+: resp.contentType) ∨
          resp.body = [])) :
    (downloadPDF join o finalURL outputDir w).1 = false ∧
      (downloadPDF join o finalURL outputDir w).2.files = w.files ∧
      (fileExists w (join outputDir (urlToFilename finalURL)) = true →
        (downloadPDF join o finalURL outputDir w).2.requests = w.requests) := by
  by_cases hex : fileExists w (join outputDir (urlToFilename finalURL)) = true
  · rw [downloadPDF_exists join o finalURL outputDir w hex]
    exact ⟨rfl, rfl, fun _ => rfl⟩
  · rcases h with h | ⟨resp, hget, hbad⟩
    · exact absurd h hex
    · have hex2 : fileExists w (join outputDir (urlToFilename finalURL)) = false := by
        simpa using hex
      rw [downloadPDF_guard join o finalURL outputDir w resp hex2 hget]
      · exact ⟨rfl, rfl, fun h => absurd h hex⟩
      · rcases hbad with hs | hc | hb
        · exact Or.inl hs
        · right; left
          rw [← Bool.not_eq_true, stringsContains_iff]
          exact hc
        · exact Or.inr (Or.inr (Or.inr (Or.inl hb)))

/-- Instance of C5: a 404 answer with content type `text/html` for a URL whose
file is not there yet. -/
theorem downloadPDF_rejects_witness :
    (downloadPDF (fun d f => d ++ f) ⟨some ⟨404, "text/html".toList, [60], false⟩, false, false, 0⟩
        "https://en.walkera.com/docs/x.pdf".toList "PDFs/".toList ⟨fun _ => none, []⟩).1 = false ∧
      (downloadPDF (fun d f => d ++ f) ⟨some ⟨404, "text/html".toList, [60], false⟩, false, false, 0⟩
        "https://en.walkera.com/docs/x.pdf".toList "PDFs/".toList ⟨fun _ => none, []⟩).2.files =
        fun _ => none :=
  ⟨(downloadPDF_rejects (fun d f => d ++ f)
      ⟨some ⟨404, "text/html".toList, [60], false⟩, false, false, 0⟩
      "https://en.walkera.com/docs/x.pdf".toList "PDFs/".toList ⟨fun _ => none, []⟩
      (Or.inr ⟨_, rfl, Or.inl (by decide)⟩)).1,
   (downloadPDF_rejects (fun d f => d ++ f)
      ⟨some ⟨404, "text/html".toList, [60], false⟩, false, false, 0⟩
      "https://en.walkera.com/docs/x.pdf".toList "PDFs/".toList ⟨fun _ => none, []⟩
      (Or.inr ⟨_, rfl, Or.inl (by decide)⟩)).2.1⟩

/-- Every run of `downloadPDF` ends in one of three ways: it stops at the
existence check, it stops after the request and before `os.Create`, or it
creates the file and writes. -/
theorem downloadPDF_cases (join : GoString → GoString → GoString) (o : Outcome)
    (finalURL outputDir : GoString) (w : World) :
    downloadPDF join o finalURL outputDir w = (false, w) ∨
      downloadPDF join o finalURL outputDir w =
        (false, ⟨w.files, w.requests ++ [finalURL]⟩) ∨
      ∃ resp, o.get = some resp ∧
        downloadPDF join o finalURL outputDir w =
          if o.writeFails then
            (false, ⟨Function.update w.files (join outputDir (urlToFilename finalURL))
              (some (FileInfo.file (resp.body.take o.bytesWritten))),
              w.requests ++ [finalURL]⟩)
          else
            (true, ⟨Function.update w.files (join outputDir (urlToFilename finalURL))
              (some (FileInfo.file resp.body)), w.requests ++ [finalURL]⟩) := by
  by_cases hex : fileExists w (join outputDir (urlToFilename finalURL)) = true
  · exact Or.inl (downloadPDF_exists join o finalURL outputDir w hex)
  have hex2 : fileExists w (join outputDir (urlToFilename finalURL)) = false := by
    simpa using hex
  cases hget : o.get with
  | none => exact Or.inr (Or.inl (downloadPDF_transport join o finalURL outputDir w hex2 hget))
  | some resp =>
    by_cases hbad : resp.statusCode ≠ 200 ∨
        stringsContains resp.contentType "application/pdf".toList = false ∨
        resp.readFailed = true ∨ resp.body = [] ∨ o.createFails = true
    · exact Or.inr (Or.inl (downloadPDF_guard join o finalURL outputDir w resp hex2 hget hbad))
    · simp only [not_or, ne_eq, not_not, Bool.not_eq_false, Bool.not_eq_true] at hbad
      obtain ⟨h1, h2, h3, h4, h5⟩ := hbad
      exact Or.inr (Or.inr ⟨resp, rfl,
        downloadPDF_write join o finalURL outputDir w resp hex2 hget h1 h2 h3 h4 h5⟩)

/-- C6: when the destination file does not exist, the GET answers 200 with a
content type containing `application/pdf` and a non-empty body that is read
in full, and creating and writing the file succeed, `downloadPDF` returns true
and the destination file then holds exactly the body; and `downloadPDF`
returns true only if it has written the body of the response to that file. -/
theorem downloadPDF_persists (join : GoString → GoString → GoString) (o : Outcome)
    (finalURL outputDir : GoString) (w : World) :
    (∀ resp, fileExists w (join outputDir (urlToFilename finalURL)) = false →
      o.get = some resp → resp.statusCode = 200 →
      "application/pdf".toList <:+: resp.contentType →
      resp.readFailed = false → resp.body ≠ [] →
      o.createFails = false → o.writeFails = false →
        (downloadPDF join o finalURL outputDir w).1 = true ∧
          (downloadPDF join o finalURL outputDir w).2.files
              (join outputDir (urlToFilename finalURL)) = some (FileInfo.file resp.body)) ∧
      ((downloadPDF join o finalURL outputDir w).1 = true →
        ∃ resp, o.get = some resp ∧
          (downloadPDF join o finalURL outputDir w).2.files
              (join outputDir (urlToFilename finalURL)) = some (FileInfo.file resp.body)) := by
  constructor
  · intro resp hex hget hstatus hct hread hbody hcreate hwrite
    rw [downloadPDF_write join o finalURL outputDir w resp hex hget hstatus
      ((stringsContains_iff _ _).2 hct) hread hbody hcreate, hwrite]
    exact ⟨rfl, Function.update_same _ _ _⟩
  · intro htrue
    rcases downloadPDF_cases join o finalURL outputDir w with h | h | ⟨resp, hget, h⟩
    · rw [h] at htrue; exact absurd htrue Bool.false_ne_true
    · rw [h] at htrue; exact absurd htrue Bool.false_ne_true
    · refine ⟨resp, hget, ?_⟩
      rw [h] at htrue ⊢
      cases hw : o.writeFails with
      | true => rw [hw] at htrue; exact absurd htrue Bool.false_ne_true
      | false => exact Function.update_same _ _ _

/-- Instance of C6: a 200 answer of type `application/pdf` with the four bytes
`%PDF` for `https://en.walkera.com/docs/x.pdf` on an empty file system. -/
theorem downloadPDF_persists_witness :
    (downloadPDF (fun d f => d ++ f)
        ⟨some ⟨200, "application/pdf".toList, [37, 80, 68, 70], false⟩, false, false, 0⟩
        "https://en.walkera.com/docs/x.pdf".toList "PDFs/".toList ⟨fun _ => none, []⟩).1 = true ∧
      (downloadPDF (fun d f => d ++ f)
        ⟨some ⟨200, "application/pdf".toList, [37, 80, 68, 70], false⟩, false, false, 0⟩
        "https://en.walkera.com/docs/x.pdf".toList "PDFs/".toList ⟨fun _ => none, []⟩).2.files
          ("PDFs/".toList ++ urlToFilename "https://en.walkera.com/docs/x.pdf".toList) =
        some (FileInfo.file [37, 80, 68, 70]) :=
  (downloadPDF_persists (fun d f => d ++ f)
    ⟨some ⟨200, "application/pdf".toList, [37, 80, 68, 70], false⟩, false, false, 0⟩
    "https://en.walkera.com/docs/x.pdf".toList "PDFs/".toList ⟨fun _ => none, []⟩).1
    ⟨200, "application/pdf".toList, [37, 80, 68, 70], false⟩ rfl rfl rfl (by decide) rfl
    (by decide) rfl rfl

/-- C7, refuted as stated: when `os.Create` succeeds and the write fails before
any byte is written, `downloadPDF` returns false and an empty file that was not
there before stays at the destination. -/
theorem downloadPDF_failed_write_leaves_file :
    (downloadPDF (fun d f => d ++ f)
        ⟨some ⟨200, "application/pdf".toList, [37, 80, 68, 70], false⟩, false, true, 0⟩
        "https://en.walkera.com/docs/x.pdf".toList "PDFs/".toList ⟨fun _ => none, []⟩).1 = false ∧
      (downloadPDF (fun d f => d ++ f)
        ⟨some ⟨200, "application/pdf".toList, [37, 80, 68, 70], false⟩, false, true, 0⟩
        "https://en.walkera.com/docs/x.pdf".toList "PDFs/".toList ⟨fun _ => none, []⟩).2.files
          "PDFs/x.pdf".toList = some (FileInfo.file []) := by
  decide

/-- C7, amended: when `downloadPDF` returns false the file system is as it was
before the call, except when the write to the freshly created file fails; the
destination then holds the bytes written before the failure and every other
path is as before. -/
theorem downloadPDF_failure_state (join : GoString → GoString → GoString) (o : Outcome)
    (finalURL outputDir : GoString) (w : World)
    (h : (downloadPDF join o finalURL outputDir w).1 = false) :
    (downloadPDF join o finalURL outputDir w).2.files = w.files ∨
      (o.writeFails = true ∧ ∃ resp, o.get = some resp ∧
        (downloadPDF join o finalURL outputDir w).2.files =
          Function.update w.files (join outputDir (urlToFilename finalURL))
            (some (FileInfo.file (resp.body.take o.bytesWritten)))) := by
  rcases downloadPDF_cases join o finalURL outputDir w with h1 | h1 | ⟨resp, hget, h1⟩
  · exact Or.inl (by rw [h1])
  · exact Or.inl (by rw [h1])
  · rw [h1] at h ⊢
    cases hw : o.writeFails with
    | true => exact Or.inr ⟨rfl, resp, hget, rfl⟩
    | false =>
      rw [hw] at h
      exact Bool.noConfusion h

/-- Instance of the amended C7: a transport error leaves the file system as it
was. -/
theorem downloadPDF_failure_state_witness :
    (downloadPDF (fun d f => d ++ f) ⟨none, false, false, 0⟩
        "https://en.walkera.com/docs/x.pdf".toList "PDFs/".toList ⟨fun _ => none, []⟩).1 = false ∧
      (downloadPDF (fun d f => d ++ f) ⟨none, false, false, 0⟩
        "https://en.walkera.com/docs/x.pdf".toList "PDFs/".toList ⟨fun _ => none, []⟩).2.files =
        fun _ => none :=
  ⟨by decide,
    (downloadPDF_failure_state (fun d f => d ++ f) ⟨none, false, false, 0⟩
      "https://en.walkera.com/docs/x.pdf".toList "PDFs/".toList ⟨fun _ => none, []⟩
      (by decide)).resolve_right (fun h => Bool.noConfusion h.1)⟩

/-! ## The entry point -/

/-- C8, refuted as stated: a link that holds the site prefix further inside
does not start with it, and `main` leaves it as it is instead of prepending
the prefix. -/
theorem absoluteURL_not_by_prefix :
    ¬ ("https://en.walkera.com/".toList <+:
        "//cdn.example/get?src=https://en.walkera.com/docs/x.pdf".toList) ∧
      absoluteURL "//cdn.example/get?src=https://en.walkera.com/docs/x.pdf".toList =
        "//cdn.example/get?src=https://en.walkera.com/docs/x.pdf".toList ∧
      absoluteURL "//cdn.example/get?src=https://en.walkera.com/docs/x.pdf".toList ≠
        "https://en.walkera.com/".toList ++
          "//cdn.example/get?src=https://en.walkera.com/docs/x.pdf".toList := by
  decide

/-- C8, amended: the URL that `main` validates and passes to `downloadPDF` for
a link `l` is `l` itself if `l` contains `https://en.walkera.com/` anywhere,
in particular if it starts with it, and that prefix followed by `l` if `l`
does not contain it. -/
theorem absoluteURL_by_containment (l : GoString) :
    ("https://en.walkera.com/".toList <:+: l → absoluteURL l = l) ∧
      ("https://en.walkera.com/".toList <+: l → absoluteURL l = l) ∧
      (¬ ("https://en.walkera.com/".toList <:+: l) →
        absoluteURL l = "https://en.walkera.com/".toList ++ l) ∧
      ∀ (isUrlValid : GoString → Bool) (join : GoString → GoString → GoString)
        (outcome : GoString → Outcome) (rest : List GoString) (w : World),
        mainLoop isUrlValid join outcome (l :: rest) w =
          mainLoop isUrlValid join outcome rest
            (if isUrlValid (absoluteURL l) then
              (downloadPDF join (outcome (absoluteURL l)) (absoluteURL l) "PDFs/".toList w).2
            else w) := by
  have hin : "https://en.walkera.com/".toList <:+: l → absoluteURL l = l := by
    intro h
    unfold absoluteURL
    rw [if_neg (by rw [(stringsContains_iff _ _).2 h]; decide)]
  refine ⟨hin, fun h => hin h.isInfix, ?_, fun _ _ _ _ _ => rfl⟩
  intro h
  have hc : stringsContains l "https://en.walkera.com/".toList = false := by
    rw [← Bool.not_eq_true, stringsContains_iff]
    exact h
  unfold absoluteURL
  rw [if_pos (by rw [hc]; rfl)]

/-- Instance of the amended C8: the relative link `docs/x.pdf`. -/
theorem absoluteURL_by_containment_witness :
    ¬ ("https://en.walkera.com/".toList <:+: "docs/x.pdf".toList) ∧
      absoluteURL "docs/x.pdf".toList = "https://en.walkera.com/docs/x.pdf".toList :=
  ⟨by decide, (absoluteURL_by_containment "docs/x.pdf".toList).2.2.1 (by decide)⟩

/-! ## Fetching the page -/

/-- C9, evaluated where `http.Get` returns a nil response and an error: the
error is logged and the read of `response.Body` then panics, so no string is
returned. -/
theorem getDataFromURL_transport_error_panics (uri err : GoString) (log : List GoString) :
    getDataFromURL (fun _ => (none, some err)) uri log =
      (log ++ ["Scraping ".toList ++ uri] ++ [err],
        Except.error Panic.nilPointerDereference) := by
  rfl


end Walkera
